import Mathlib

/-!
Verification of the portfolio aggregation engine of the
investment-portfolio-dashboard repository.

The repository's source (src/types/portfolio.ts) declares the data model:
`Stock`, `PortfolioRow`, `SectorSummary`, `Portfolio`.  The aggregation
computation itself (the `aggregate` function of the spec, §4.1) is not
present in the source files, so it is modelled here from the spec's words.
All numbers are embedded as exact rationals (ℚ).
-/

namespace Dashboard

/-- Stock record, mirroring the `Stock` interface of src/types/portfolio.ts:
`symbol`, `companyName`, `exchange`, `sector`, `cmp`, `peRatio` and
`earnings` are required fields; `industry`, `marketCap`, `high52Week`
and `low52Week` are optional. -/
structure Stock where
  symbol : String
  companyName : String
  exchange : String
  sector : String
  industry : Option String
  cmp : ℚ
  peRatio : ℚ
  earnings : ℚ
  marketCap : Option ℚ
  high52Week : Option ℚ
  low52Week : Option ℚ
deriving DecidableEq

/-- Modelled from the spec: the `RawHolding` input record of §4.1 (missing
from src/), a Stock snapshot plus the purchase-lot fields of §3
(`purchasePrice`, `quantity`, optional `averagePrice`). -/
structure RawHolding where
  stock : Stock
  purchasePrice : ℚ
  quantity : ℚ
  averagePrice : Option ℚ
deriving DecidableEq

/-- Row of the portfolio, mirroring the `PortfolioRow` interface of
src/types/portfolio.ts: the stock, the authoritative purchase fields, and
the four derived fields recomputed by the Aggregator. -/
structure PortfolioRow where
  stock : Stock
  purchasePrice : ℚ
  quantity : ℚ
  investment : ℚ
  presentValue : ℚ
  gainLoss : ℚ
  gainLossPercent : ℚ
  averagePrice : Option ℚ
deriving DecidableEq

/-- Sector aggregate, mirroring the `SectorSummary` interface of
src/types/portfolio.ts. -/
structure SectorSummary where
  sector : String
  stockCount : Nat
  totalInvestment : ℚ
  totalPresentValue : ℚ
  totalGainLoss : ℚ
  gainLossPercent : ℚ
  portfolioWeight : ℚ
  averagePeRatio : Option ℚ
  stocks : List String
deriving DecidableEq

/-- Root aggregate, mirroring the `Portfolio` interface of
src/types/portfolio.ts (the `lastUpdated` timestamp, the only
non-deterministic output, is omitted from the embedding). -/
structure Portfolio where
  rows : List PortfolioRow
  sectorSummaries : List SectorSummary
  totalInvestment : ℚ
  totalPresentValue : ℚ
  totalGainLoss : ℚ
  totalGainLossPercent : ℚ
deriving DecidableEq

/-- Modelled from the spec: the two hard failure conditions of §4.1/§7
(`MissingSector` is a recoverable default, not an error value). -/
inductive AggregateError where
  | InvalidQuantity
  | InvalidPurchasePrice
deriving DecidableEq

/-- Modelled from the spec: the cost basis of a holding,
`averagePrice ?? purchasePrice` (§3). -/
def costBasis (h : RawHolding) : ℚ :=
  h.averagePrice.getD h.purchasePrice

/-- Modelled from the spec: validation of §4.1 — `quantity <= 0` is
`InvalidQuantity`, a cost basis `<= 0` is `InvalidPurchasePrice`; the first
violation encountered is reported. -/
def validate : List RawHolding → Option AggregateError
  | [] => none
  | h :: t =>
    if h.quantity ≤ 0 then some .InvalidQuantity
    else if costBasis h ≤ 0 then some .InvalidPurchasePrice
    else validate t

/-- Modelled from the spec: the four derived row fields of §3,
`investment = (averagePrice ?? purchasePrice) × quantity`,
`presentValue = cmp × quantity`, `gainLoss = presentValue − investment`,
and the zero-guarded `gainLossPercent`. -/
def mkRow (h : RawHolding) : PortfolioRow :=
  let inv := costBasis h * h.quantity
  let pv := h.stock.cmp * h.quantity
  { stock := h.stock
    purchasePrice := h.purchasePrice
    quantity := h.quantity
    investment := inv
    presentValue := pv
    gainLoss := pv - inv
    gainLossPercent := if inv = 0 then 0 else (pv - inv) / inv * 100
    averagePrice := h.averagePrice }

/-- Modelled from the spec: first-occurrence-order de-duplication by a key
function (§9 fixes the `stocks` list as insertion-order-deduplicated; the
distinct sectors are collected the same way). -/
def dedupByKey {α β : Type} [DecidableEq β] (key : α → β) : List α → List α
  | [] => []
  | a :: l => a :: dedupByKey key (l.filter fun b => key b ≠ key a)
termination_by l => l.length
decreasing_by
  simp only [List.length_cons]
  exact Nat.lt_succ_of_le (List.length_filter_le _ l)

/-- Modelled from the spec: the `SectorSummary` of §3 for sector label `s`,
given the full row list and the portfolio's total present value. -/
def mkSectorSummary (portfolioPV : ℚ) (rows : List PortfolioRow) (s : String) :
    SectorSummary :=
  let member := rows.filter fun r => r.stock.sector = s
  let distinct := dedupByKey (fun r => r.stock.symbol) member
  let ti := (member.map PortfolioRow.investment).sum
  let tpv := (member.map PortfolioRow.presentValue).sum
  let tgl := (member.map PortfolioRow.gainLoss).sum
  { sector := s
    stockCount := distinct.length
    totalInvestment := ti
    totalPresentValue := tpv
    totalGainLoss := tgl
    gainLossPercent := if ti = 0 then 0 else tgl / ti * 100
    portfolioWeight := if portfolioPV = 0 then 0 else tpv / portfolioPV * 100
    averagePeRatio :=
      if distinct.length = 0 then none
      else some ((distinct.map fun r => r.stock.peRatio).sum / (distinct.length : ℚ))
    stocks := distinct.map fun r => r.stock.symbol }

/-- Modelled from the spec: the emission order of §3/§8 — descending
`totalPresentValue`, ties broken by ascending sector name. -/
def SectorSummary.before (a b : SectorSummary) : Prop :=
  b.totalPresentValue < a.totalPresentValue ∨
    (a.totalPresentValue = b.totalPresentValue ∧ a.sector ≤ b.sector)

instance : DecidableRel SectorSummary.before := fun a b => by
  unfold SectorSummary.before; infer_instance

instance : IsTotal SectorSummary SectorSummary.before := ⟨by
  intro a b
  rcases lt_trichotomy a.totalPresentValue b.totalPresentValue with h | h | h
  · exact Or.inr (Or.inl h)
  · rcases le_total a.sector b.sector with hle | hle
    · exact Or.inl (Or.inr ⟨h, hle⟩)
    · exact Or.inr (Or.inr ⟨h.symm, hle⟩)
  · exact Or.inl (Or.inl h)⟩

instance : IsTrans SectorSummary SectorSummary.before := ⟨by
  intro a b c hab hbc
  rcases hab with h1 | ⟨e1, n1⟩ <;> rcases hbc with h2 | ⟨e2, n2⟩
  · exact Or.inl (h2.trans h1)
  · exact Or.inl (lt_of_eq_of_lt e2.symm h1)
  · exact Or.inl (lt_of_lt_of_eq h2 e1.symm)
  · exact Or.inr ⟨e1.trans e2, le_trans n1 n2⟩⟩

/-- Modelled from the spec: single-pass accumulation of the three portfolio
totals over the rows (§4.1 step 4). -/
def sumTotals (rows : List PortfolioRow) : ℚ × ℚ × ℚ :=
  rows.foldl
    (fun t r => (t.1 + r.investment, t.2.1 + r.presentValue, t.2.2 + r.gainLoss))
    (0, 0, 0)

/-- Modelled from the spec: the Aggregator of §4.1, the component missing
from src/ — validate atomically, derive the rows in input order, group by
sector, total, and sort the sector summaries. -/
def aggregate (holdings : List RawHolding) : Except AggregateError Portfolio :=
  match validate holdings with
  | some e => .error e
  | none =>
    let rows := holdings.map mkRow
    let t := sumTotals rows
    let sects := dedupByKey id (rows.map fun r => r.stock.sector)
    .ok
    { rows := rows
      sectorSummaries :=
        List.insertionSort SectorSummary.before (sects.map (mkSectorSummary t.2.1 rows))
      totalInvestment := t.1
      totalPresentValue := t.2.1
      totalGainLoss := t.2.2
      totalGainLossPercent := if t.1 = 0 then 0 else t.2.2 / t.1 * 100 }

/-- Concrete stock snapshot used to witness the theorems (the §8 example:
cmp = 150). -/
def stockA : Stock :=
  { symbol := "AAPL", companyName := "Apple Inc.", exchange := "NASDAQ",
    sector := "Technology", industry := none, cmp := 150, peRatio := 30,
    earnings := 5, marketCap := none, high52Week := none, low52Week := none }

/-- Concrete stock snapshot in a second sector, for multi-sector witnesses. -/
def stockB : Stock :=
  { symbol := "HDFCBANK", companyName := "HDFC Bank", exchange := "NSE",
    sector := "Finance", industry := none, cmp := 50, peRatio := 20,
    earnings := 4, marketCap := none, high52Week := none, low52Week := none }

/-- Concrete halted stock with cmp = 0 (valid per §4.1), for the zero-guard
witness. -/
def stockZ : Stock :=
  { symbol := "HALT", companyName := "Halted Corp", exchange := "NYSE",
    sector := "Energy", industry := none, cmp := 0, peRatio := 10,
    earnings := 1, marketCap := none, high52Week := none, low52Week := none }

/-- Concrete holding of the §8 example: purchasePrice = 100, quantity = 10. -/
def exHolding : RawHolding :=
  { stock := stockA, purchasePrice := 100, quantity := 10, averagePrice := none }

/-- Concrete second holding in the Finance sector. -/
def holdingB : RawHolding :=
  { stock := stockB, purchasePrice := 40, quantity := 20, averagePrice := none }

/-- Concrete holding of a halted stock: present value 0. -/
def zeroHolding : RawHolding :=
  { stock := stockZ, purchasePrice := 10, quantity := 1, averagePrice := none }

/-- Concrete two-sector batch of holdings. -/
def exHs2 : List RawHolding := [exHolding, holdingB]

/-- The all-empty portfolio, used as a fallback when unwrapping `aggregate`. -/
def emptyPortfolio : Portfolio :=
  { rows := [], sectorSummaries := [], totalInvestment := 0, totalPresentValue := 0,
    totalGainLoss := 0, totalGainLossPercent := 0 }

/-- The portfolio aggregated from the single §8 example holding. -/
def exPortfolio : Portfolio := (aggregate [exHolding]).toOption.getD emptyPortfolio

/-- The portfolio aggregated from the two-sector batch. -/
def exPortfolio2 : Portfolio := (aggregate exHs2).toOption.getD emptyPortfolio

/-- The portfolio aggregated from the halted-stock holding: total present
value 0. -/
def zeroPortfolio : Portfolio := (aggregate [zeroHolding]).toOption.getD emptyPortfolio

/-- The single sector summary of `zeroPortfolio`. -/
def zeroSummary : SectorSummary :=
  mkSectorSummary zeroPortfolio.totalPresentValue zeroPortfolio.rows "Energy"

/-! ### Helper lemmas about the embedding -/

theorem dedupByKey_sublist {α β : Type} [DecidableEq β] (key : α → β) (l : List α) :
    (dedupByKey key l).Sublist l := by
  induction l using dedupByKey.induct key with
  | case1 => simp [dedupByKey]
  | case2 a t ih =>
    simp only [dedupByKey]
    exact List.Sublist.cons₂ a (ih.trans (List.filter_sublist t))

theorem mem_of_mem_dedupByKey {α β : Type} [DecidableEq β] (key : α → β) {a : α}
    {l : List α} (h : a ∈ dedupByKey key l) : a ∈ l :=
  (dedupByKey_sublist key l).subset h

theorem nodup_map_key_dedupByKey {α β : Type} [DecidableEq β] (key : α → β) (l : List α) :
    ((dedupByKey key l).map key).Nodup := by
  induction l using dedupByKey.induct key with
  | case1 => simp [dedupByKey]
  | case2 a t ih =>
    simp only [dedupByKey, List.map_cons, List.nodup_cons]
    refine ⟨?_, ih⟩
    intro hmem
    rcases List.mem_map.mp hmem with ⟨b, hb, hkb⟩
    have hbf := List.mem_filter.mp (mem_of_mem_dedupByKey _ hb)
    have hne : key b ≠ key a := by simpa using hbf.2
    exact hne hkb

theorem mem_map_key_dedupByKey {α β : Type} [DecidableEq β] (key : α → β) {x : α}
    {l : List α} (hx : x ∈ l) : key x ∈ (dedupByKey key l).map key := by
  induction l using dedupByKey.induct key with
  | case1 => cases hx
  | case2 a t ih =>
    simp only [dedupByKey, List.map_cons, List.mem_cons]
    by_cases hk : key x = key a
    · exact Or.inl hk
    · rcases List.mem_cons.mp hx with rfl | hxt
      · exact absurd rfl hk
      · exact Or.inr (ih (List.mem_filter.mpr ⟨hxt, by simpa using hk⟩))

theorem nodup_dedupByKey_id {α : Type} [DecidableEq α] (l : List α) :
    (dedupByKey id l).Nodup := by
  simpa using nodup_map_key_dedupByKey id l

theorem mem_dedupByKey_id {α : Type} [DecidableEq α] {x : α} {l : List α} (hx : x ∈ l) :
    x ∈ dedupByKey id l := by
  simpa using mem_map_key_dedupByKey id hx

theorem dedupByKey_length_pos {α β : Type} [DecidableEq β] (key : α → β) {l : List α}
    (hl : l ≠ []) : 0 < (dedupByKey key l).length := by
  cases l with
  | nil => cases hl rfl
  | cons a t => simp [dedupByKey]

theorem sum_map_ite_of_not_mem {κ : Type} [DecidableEq κ] (c : ℚ) (x : κ)
    (keys : List κ) (hx : x ∉ keys) :
    (keys.map fun k => if x = k then c else 0).sum = 0 := by
  induction keys with
  | nil => rfl
  | cons k ks ih =>
    simp only [List.map_cons, List.sum_cons]
    rw [if_neg fun he : x = k => hx (he ▸ List.mem_cons_self k ks),
      ih fun hm => hx (List.mem_cons_of_mem _ hm)]
    ring

theorem sum_map_ite_single {κ : Type} [DecidableEq κ] (c : ℚ) (x : κ)
    (keys : List κ) (hnd : keys.Nodup) (hx : x ∈ keys) :
    (keys.map fun k => if x = k then c else 0).sum = c := by
  induction keys with
  | nil => cases hx
  | cons k ks ih =>
    simp only [List.map_cons, List.sum_cons]
    rcases List.mem_cons.mp hx with he | hm
    · subst he
      rw [if_pos rfl, sum_map_ite_of_not_mem c x ks (List.nodup_cons.mp hnd).1]
      ring
    · have hne : x ≠ k := fun he => (List.nodup_cons.mp hnd).1 (he ▸ hm)
      rw [if_neg hne, ih (List.nodup_cons.mp hnd).2 hm]
      ring

theorem sum_filter_partition {α κ : Type} [DecidableEq κ] (keyf : α → κ) (f : α → ℚ)
    (l : List α) (keys : List κ) (hnd : keys.Nodup) (hcov : ∀ a ∈ l, keyf a ∈ keys) :
    (keys.map fun k => ((l.filter fun a => keyf a = k).map f).sum).sum = (l.map f).sum := by
  induction l generalizing keys with
  | nil => simp
  | cons a t ih =>
    have hstep : ∀ k ∈ keys, (((a :: t).filter fun b => keyf b = k).map f).sum
        = (if keyf a = k then f a else 0) + ((t.filter fun b => keyf b = k).map f).sum := by
      intro k _
      by_cases h : keyf a = k
      · simp [List.filter_cons, h]
      · simp [List.filter_cons, h]
    rw [List.map_congr_left hstep, List.sum_map_add,
      sum_map_ite_single (f a) (keyf a) keys hnd (hcov a (List.mem_cons_self a t)),
      ih keys hnd fun b hb => hcov b (List.mem_cons_of_mem a hb)]
    simp

theorem sumTotals_eq (rows : List PortfolioRow) :
    sumTotals rows = ((rows.map PortfolioRow.investment).sum,
      (rows.map PortfolioRow.presentValue).sum, (rows.map PortfolioRow.gainLoss).sum) := by
  have H : ∀ (rs : List PortfolioRow) (t : ℚ × ℚ × ℚ),
      rs.foldl (fun t r => (t.1 + r.investment, t.2.1 + r.presentValue, t.2.2 + r.gainLoss)) t
        = (t.1 + (rs.map PortfolioRow.investment).sum,
           t.2.1 + (rs.map PortfolioRow.presentValue).sum,
           t.2.2 + (rs.map PortfolioRow.gainLoss).sum) := by
    intro rs
    induction rs with
    | nil => intro t; simp
    | cons r rs ih =>
      intro t
      simp only [List.foldl_cons, List.map_cons, List.sum_cons, ih]
      simp [Prod.mk.injEq, add_assoc]
  simpa [sumTotals] using H rows (0, 0, 0)

theorem validate_eq_none_iff (hs : List RawHolding) :
    validate hs = none ↔ ∀ h ∈ hs, 0 < h.quantity ∧ 0 < costBasis h := by
  induction hs with
  | nil => simp [validate]
  | cons h t ih =>
    constructor
    · intro hv
      by_cases h1 : h.quantity ≤ 0
      · simp [validate, h1] at hv
      · by_cases h2 : costBasis h ≤ 0
        · simp [validate, h1, h2] at hv
        · have ht := ih.mp (by simpa [validate, h1, h2] using hv)
          intro x hx
          rcases List.mem_cons.mp hx with rfl | hxt
          · exact ⟨not_le.mp h1, not_le.mp h2⟩
          · exact ht x hxt
    · intro hall
      have h1 : ¬h.quantity ≤ 0 := not_le.mpr (hall h (List.mem_cons_self h t)).1
      have h2 : ¬costBasis h ≤ 0 := not_le.mpr (hall h (List.mem_cons_self h t)).2
      simp [validate, h1, h2, ih.mpr fun x hx => hall x (List.mem_cons_of_mem h hx)]

theorem validate_some_invalid_quantity (hs : List RawHolding)
    (hv : validate hs = some .InvalidQuantity) : ∃ h ∈ hs, h.quantity ≤ 0 := by
  induction hs with
  | nil => simp [validate] at hv
  | cons h t ih =>
    by_cases h1 : h.quantity ≤ 0
    · exact ⟨h, List.mem_cons_self h t, h1⟩
    · by_cases h2 : costBasis h ≤ 0
      · simp [validate, h1, h2] at hv
      · rcases ih (by simpa [validate, h1, h2] using hv) with ⟨x, hx, hq⟩
        exact ⟨x, List.mem_cons_of_mem h hx, hq⟩

theorem validate_some_invalid_price (hs : List RawHolding)
    (hv : validate hs = some .InvalidPurchasePrice) : ∃ h ∈ hs, costBasis h ≤ 0 := by
  induction hs with
  | nil => simp [validate] at hv
  | cons h t ih =>
    by_cases h1 : h.quantity ≤ 0
    · simp [validate, h1] at hv
    · by_cases h2 : costBasis h ≤ 0
      · exact ⟨h, List.mem_cons_self h t, h2⟩
      · rcases ih (by simpa [validate, h1, h2] using hv) with ⟨x, hx, hq⟩
        exact ⟨x, List.mem_cons_of_mem h hx, hq⟩

theorem aggregate_error_eq (hs : List RawHolding) (e : AggregateError) :
    aggregate hs = .error e ↔ validate hs = some e := by
  cases hval : validate hs with
  | some f => simp [aggregate, hval]
  | none => simp [aggregate, hval]

theorem aggregate_ok (hs : List RawHolding) (p : Portfolio) (hp : aggregate hs = .ok p) :
    validate hs = none ∧
    p.rows = hs.map mkRow ∧
    p.totalInvestment = ((hs.map mkRow).map PortfolioRow.investment).sum ∧
    p.totalPresentValue = ((hs.map mkRow).map PortfolioRow.presentValue).sum ∧
    p.totalGainLoss = ((hs.map mkRow).map PortfolioRow.gainLoss).sum ∧
    p.totalGainLossPercent =
      (if p.totalInvestment = 0 then 0 else p.totalGainLoss / p.totalInvestment * 100) ∧
    p.sectorSummaries = List.insertionSort SectorSummary.before
      ((dedupByKey id ((hs.map mkRow).map fun r => r.stock.sector)).map
        (mkSectorSummary p.totalPresentValue (hs.map mkRow))) := by
  cases hval : validate hs with
  | some e => simp [aggregate, hval] at hp
  | none =>
    simp only [aggregate, hval] at hp
    rw [Except.ok.injEq] at hp
    subst hp
    refine ⟨rfl, rfl, ?_, ?_, ?_, ?_, ?_⟩ <;> simp only [sumTotals_eq]

theorem aggregate_ok_summaries (hs : List RawHolding) (p : Portfolio)
    (hp : aggregate hs = .ok p) :
    p.sectorSummaries = List.insertionSort SectorSummary.before
      ((dedupByKey id (p.rows.map fun r => r.stock.sector)).map
        (mkSectorSummary p.totalPresentValue p.rows)) := by
  obtain ⟨-, hrows, -, -, -, -, hsum⟩ := aggregate_ok hs p hp
  rw [hrows]
  exact hsum

theorem summaries_perm (hs : List RawHolding) (p : Portfolio)
    (hp : aggregate hs = .ok p) :
    p.sectorSummaries.Perm ((dedupByKey id (p.rows.map fun r => r.stock.sector)).map
      (mkSectorSummary p.totalPresentValue p.rows)) := by
  rw [aggregate_ok_summaries hs p hp]
  exact List.perm_insertionSort _ _

theorem mem_summaries_iff (hs : List RawHolding) (p : Portfolio)
    (hp : aggregate hs = .ok p) (s : SectorSummary) :
    s ∈ p.sectorSummaries ↔ ∃ sec ∈ dedupByKey id (p.rows.map fun r => r.stock.sector),
      s = mkSectorSummary p.totalPresentValue p.rows sec := by
  rw [(summaries_perm hs p hp).mem_iff, List.mem_map]
  constructor
  · rintro ⟨sec, hsec, rfl⟩
    exact ⟨sec, hsec, rfl⟩
  · rintro ⟨sec, hsec, rfl⟩
    exact ⟨sec, hsec, rfl⟩

theorem summaries_sum_eq (hs : List RawHolding) (p : Portfolio)
    (hp : aggregate hs = .ok p) (F : SectorSummary → ℚ) (f : PortfolioRow → ℚ)
    (hFf : ∀ sec, F (mkSectorSummary p.totalPresentValue p.rows sec)
      = ((p.rows.filter fun r => r.stock.sector = sec).map f).sum) :
    (p.sectorSummaries.map F).sum = (p.rows.map f).sum := by
  rw [((summaries_perm hs p hp).map F).sum_eq, List.map_map]
  simp only [Function.comp_def]
  rw [List.map_congr_left fun sec _ => hFf sec,
    sum_filter_partition (fun r => r.stock.sector) f p.rows
      (dedupByKey id (p.rows.map fun r => r.stock.sector))
      (nodup_dedupByKey_id _)
      fun r hr => mem_dedupByKey_id (List.mem_map_of_mem _ hr)]

/-! ### The claims -/

/-- C1: every row of a portfolio returned by `aggregate` satisfies the derived
field formulas: investment = (averagePrice ?? purchasePrice) × quantity,
presentValue = cmp × quantity, gainLoss = presentValue − investment, and
gainLossPercent = 0 when investment = 0, else (gainLoss / investment) × 100.
The witness shows the §8 instance purchasePrice=100, quantity=10, cmp=150. -/
theorem row_derived_fields (hs : List RawHolding) (p : Portfolio) (r : PortfolioRow)
    (hp : aggregate hs = .ok p) (hr : r ∈ p.rows) :
    r.investment = r.averagePrice.getD r.purchasePrice * r.quantity ∧
    r.presentValue = r.stock.cmp * r.quantity ∧
    r.gainLoss = r.presentValue - r.investment ∧
    r.gainLossPercent = if r.investment = 0 then 0 else r.gainLoss / r.investment * 100 := by
  obtain ⟨-, hrows, -, -, -, -, -⟩ := aggregate_ok hs p hp
  rw [hrows] at hr
  obtain ⟨h, -, rfl⟩ := List.mem_map.mp hr
  exact ⟨rfl, rfl, rfl, rfl⟩

/-- Witness for C1: the holding with purchasePrice=100, quantity=10, cmp=150
yields investment=1000, presentValue=1500, gainLoss=500, gainLossPercent=50. -/
theorem row_derived_fields_witness :
    (mkRow exHolding).investment = 1000 ∧ (mkRow exHolding).presentValue = 1500 ∧
    (mkRow exHolding).gainLoss = 500 ∧ (mkRow exHolding).gainLossPercent = 50 := by
  have h := row_derived_fields [exHolding] exPortfolio (mkRow exHolding) rfl
    (by rw [(rfl : exPortfolio.rows = [mkRow exHolding])]; exact List.mem_singleton_self _)
  refine ⟨h.1.trans ?_, h.2.1.trans ?_, h.2.2.1.trans ?_, h.2.2.2.trans ?_⟩ <;>
    norm_num [mkRow, costBasis, exHolding, stockA]

/-- C2: the portfolio totals returned by `aggregate` are the exact sums of the
per-row investment, present value and gain/loss. -/
theorem portfolio_totals_conserved (hs : List RawHolding) (p : Portfolio)
    (hp : aggregate hs = .ok p) :
    p.totalInvestment = (p.rows.map PortfolioRow.investment).sum ∧
    p.totalPresentValue = (p.rows.map PortfolioRow.presentValue).sum ∧
    p.totalGainLoss = (p.rows.map PortfolioRow.gainLoss).sum := by
  obtain ⟨-, hrows, h1, h2, h3, -, -⟩ := aggregate_ok hs p hp
  rw [hrows]
  exact ⟨h1, h2, h3⟩

/-- Witness for C2: the conservation law at the concrete two-sector batch. -/
theorem portfolio_totals_conserved_witness :
    exPortfolio2.totalInvestment = (exPortfolio2.rows.map PortfolioRow.investment).sum ∧
    exPortfolio2.totalPresentValue = (exPortfolio2.rows.map PortfolioRow.presentValue).sum ∧
    exPortfolio2.totalGainLoss = (exPortfolio2.rows.map PortfolioRow.gainLoss).sum :=
  portfolio_totals_conserved exHs2 exPortfolio2 rfl

/-- C8: `aggregate` on the empty holding list succeeds with empty rows, empty
sector summaries, and all totals (incl. totalGainLossPercent) equal to 0. -/
theorem aggregate_empty :
    aggregate [] = Except.ok
      { rows := [], sectorSummaries := [], totalInvestment := 0,
        totalPresentValue := 0, totalGainLoss := 0, totalGainLossPercent := 0 } := by
  simp [aggregate, validate, sumTotals, dedupByKey]

/-- C9: the rows of a portfolio returned by `aggregate` are exactly the input
holdings mapped in order through the row derivation — the i-th row comes from
the i-th holding, none dropped or reordered. -/
theorem rows_preserve_input_order (hs : List RawHolding) (p : Portfolio)
    (hp : aggregate hs = .ok p) :
    p.rows = hs.map mkRow ∧ p.rows.length = hs.length := by
  obtain ⟨-, hrows, -, -, -, -, -⟩ := aggregate_ok hs p hp
  exact ⟨hrows, by rw [hrows, List.length_map]⟩

/-- Witness for C9: input-order preservation at the concrete two-sector batch. -/
theorem rows_preserve_input_order_witness :
    exPortfolio2.rows = exHs2.map mkRow ∧ exPortfolio2.rows.length = exHs2.length :=
  rows_preserve_input_order exHs2 exPortfolio2 rfl

/-- C3: the sector summaries partition the rows — the sums of the per-sector
totals equal the portfolio totals, and each sector's totals are exactly the
sums over its member rows (those whose stock carries that sector label). -/
theorem sector_partition (hs : List RawHolding) (p : Portfolio)
    (hp : aggregate hs = .ok p) :
    (p.sectorSummaries.map SectorSummary.totalInvestment).sum = p.totalInvestment ∧
    (p.sectorSummaries.map SectorSummary.totalPresentValue).sum = p.totalPresentValue ∧
    (p.sectorSummaries.map SectorSummary.totalGainLoss).sum = p.totalGainLoss ∧
    ∀ s ∈ p.sectorSummaries,
      s.totalInvestment
        = ((p.rows.filter fun r => r.stock.sector = s.sector).map PortfolioRow.investment).sum ∧
      s.totalPresentValue
        = ((p.rows.filter fun r => r.stock.sector = s.sector).map PortfolioRow.presentValue).sum ∧
      s.totalGainLoss
        = ((p.rows.filter fun r => r.stock.sector = s.sector).map PortfolioRow.gainLoss).sum := by
  obtain ⟨-, hrows, h1, h2, h3, -, -⟩ := aggregate_ok hs p hp
  rw [← hrows] at h1 h2 h3
  refine ⟨?_, ?_, ?_, ?_⟩
  · rw [summaries_sum_eq hs p hp SectorSummary.totalInvestment PortfolioRow.investment
      fun sec => rfl, h1]
  · rw [summaries_sum_eq hs p hp SectorSummary.totalPresentValue PortfolioRow.presentValue
      fun sec => rfl, h2]
  · rw [summaries_sum_eq hs p hp SectorSummary.totalGainLoss PortfolioRow.gainLoss
      fun sec => rfl, h3]
  · intro s hsmem
    obtain ⟨sec, -, rfl⟩ := (mem_summaries_iff hs p hp s).mp hsmem
    exact ⟨rfl, rfl, rfl⟩

/-- Witness for C3: the sector partition at the concrete two-sector batch. -/
theorem sector_partition_witness :
    (exPortfolio2.sectorSummaries.map SectorSummary.totalInvestment).sum
      = exPortfolio2.totalInvestment ∧
    (exPortfolio2.sectorSummaries.map SectorSummary.totalPresentValue).sum
      = exPortfolio2.totalPresentValue ∧
    (exPortfolio2.sectorSummaries.map SectorSummary.totalGainLoss).sum
      = exPortfolio2.totalGainLoss ∧
    ∀ s ∈ exPortfolio2.sectorSummaries,
      s.totalInvestment
        = ((exPortfolio2.rows.filter fun r => r.stock.sector = s.sector).map
            PortfolioRow.investment).sum ∧
      s.totalPresentValue
        = ((exPortfolio2.rows.filter fun r => r.stock.sector = s.sector).map
            PortfolioRow.presentValue).sum ∧
      s.totalGainLoss
        = ((exPortfolio2.rows.filter fun r => r.stock.sector = s.sector).map
            PortfolioRow.gainLoss).sum :=
  sector_partition exHs2 exPortfolio2 rfl

/-- C4: every division in the output is zero-guarded: a row, sector summary or
portfolio with zero investment has gainLossPercent exactly 0, and when the
portfolio's total present value is 0 every sector's portfolioWeight is
exactly 0 (ℚ has no NaN or Infinity to produce). -/
theorem zero_division_guards (hs : List RawHolding) (p : Portfolio)
    (hp : aggregate hs = .ok p) :
    (∀ r ∈ p.rows, r.investment = 0 → r.gainLossPercent = 0) ∧
    (∀ s ∈ p.sectorSummaries, s.totalInvestment = 0 → s.gainLossPercent = 0) ∧
    (p.totalInvestment = 0 → p.totalGainLossPercent = 0) ∧
    (p.totalPresentValue = 0 → ∀ s ∈ p.sectorSummaries, s.portfolioWeight = 0) := by
  obtain ⟨-, hrows, -, -, -, hglp, -⟩ := aggregate_ok hs p hp
  refine ⟨?_, ?_, ?_, ?_⟩
  · intro r hr h0
    rw [hrows] at hr
    obtain ⟨h, -, rfl⟩ := List.mem_map.mp hr
    show (if costBasis h * h.quantity = 0 then (0 : ℚ)
      else (h.stock.cmp * h.quantity - costBasis h * h.quantity)
        / (costBasis h * h.quantity) * 100) = 0
    exact if_pos h0
  · intro s hsmem h0
    obtain ⟨sec, -, rfl⟩ := (mem_summaries_iff hs p hp s).mp hsmem
    show (if ((p.rows.filter fun r => r.stock.sector = sec).map
          PortfolioRow.investment).sum = 0 then (0 : ℚ)
      else ((p.rows.filter fun r => r.stock.sector = sec).map PortfolioRow.gainLoss).sum
        / ((p.rows.filter fun r => r.stock.sector = sec).map PortfolioRow.investment).sum
        * 100) = 0
    exact if_pos h0
  · intro h0
    rw [hglp]
    exact if_pos h0
  · intro h0 s hsmem
    obtain ⟨sec, -, rfl⟩ := (mem_summaries_iff hs p hp s).mp hsmem
    show (if p.totalPresentValue = 0 then (0 : ℚ)
      else ((p.rows.filter fun r => r.stock.sector = sec).map PortfolioRow.presentValue).sum
        / p.totalPresentValue * 100) = 0
    exact if_pos h0

/-- Witness for C4: the halted-stock portfolio has total present value 0 and
its sector summary has portfolioWeight exactly 0. -/
theorem zero_division_guards_witness : zeroSummary.portfolioWeight = 0 := by
  have h := zero_division_guards [zeroHolding] zeroPortfolio rfl
  have hss : zeroPortfolio.sectorSummaries = [zeroSummary] := by
    norm_num [zeroPortfolio, zeroSummary, aggregate, validate, sumTotals, mkRow, costBasis,
      zeroHolding, stockZ, Except.toOption, dedupByKey, mkSectorSummary, List.insertionSort]
  refine h.2.2.2 ?_ zeroSummary ?_
  · norm_num [zeroPortfolio, aggregate, validate, sumTotals, mkRow, costBasis,
      zeroHolding, stockZ, Except.toOption, dedupByKey]
  · rw [hss]
    exact List.mem_singleton_self _

/-- C5: `aggregate` fails exactly when some holding has quantity ≤ 0 or cost
basis ≤ 0; an `InvalidQuantity` failure exhibits a holding with quantity ≤ 0,
an `InvalidPurchasePrice` failure one with cost basis ≤ 0; and on failure no
Portfolio is returned at all. A cmp = 0 stock alone never makes the batch
fail, since cmp is not consulted by validation. -/
theorem aggregate_failure_characterization (hs : List RawHolding) :
    ((∃ e, aggregate hs = .error e) ↔ ∃ h ∈ hs, h.quantity ≤ 0 ∨ costBasis h ≤ 0) ∧
    (aggregate hs = .error .InvalidQuantity → ∃ h ∈ hs, h.quantity ≤ 0) ∧
    (aggregate hs = .error .InvalidPurchasePrice → ∃ h ∈ hs, costBasis h ≤ 0) ∧
    ∀ e, aggregate hs = .error e → ∀ p, aggregate hs ≠ .ok p := by
  refine ⟨⟨?_, ?_⟩, ?_, ?_, ?_⟩
  · rintro ⟨e, he⟩
    have hv := (aggregate_error_eq hs e).mp he
    have hnn : ¬validate hs = none := by simp [hv]
    rw [validate_eq_none_iff] at hnn
    push_neg at hnn
    rcases hnn with ⟨h, hmem, himp⟩
    by_cases hq : 0 < h.quantity
    · exact ⟨h, hmem, Or.inr (himp hq)⟩
    · exact ⟨h, hmem, Or.inl (not_lt.mp hq)⟩
  · rintro ⟨h, hmem, hbad⟩
    cases hv : validate hs with
    | none =>
      have hall := (validate_eq_none_iff hs).mp hv h hmem
      rcases hbad with hb | hb
      · exact absurd hall.1 (not_lt.mpr hb)
      · exact absurd hall.2 (not_lt.mpr hb)
    | some e => exact ⟨e, (aggregate_error_eq hs e).mpr hv⟩
  · intro he
    exact validate_some_invalid_quantity hs ((aggregate_error_eq hs _).mp he)
  · intro he
    exact validate_some_invalid_price hs ((aggregate_error_eq hs _).mp he)
  · intro e he p hpe
    rw [he] at hpe
    exact Except.noConfusion hpe

/-- C6: the sector summaries contain exactly one entry per distinct sector
present in the rows (their sector labels are a permutation of the
first-occurrence-deduplicated row sectors, with no duplicates), and they are
sorted by descending totalPresentValue with ties broken by ascending sector
name (the `SectorSummary.before` relation). -/
theorem sector_summaries_ordered (hs : List RawHolding) (p : Portfolio)
    (hp : aggregate hs = .ok p) :
    (p.sectorSummaries.map SectorSummary.sector).Perm
      (dedupByKey id (p.rows.map fun r => r.stock.sector)) ∧
    (p.sectorSummaries.map SectorSummary.sector).Nodup ∧
    List.Sorted SectorSummary.before p.sectorSummaries := by
  have hperm := (summaries_perm hs p hp).map SectorSummary.sector
  rw [List.map_map] at hperm
  have hid : List.map (SectorSummary.sector ∘ mkSectorSummary p.totalPresentValue p.rows)
      (dedupByKey id (p.rows.map fun r => r.stock.sector))
      = dedupByKey id (p.rows.map fun r => r.stock.sector) :=
    List.map_id _
  rw [hid] at hperm
  refine ⟨hperm, hperm.nodup_iff.mpr (nodup_dedupByKey_id _), ?_⟩
  rw [aggregate_ok_summaries hs p hp]
  exact List.sorted_insertionSort _ _

/-- Witness for C6: uniqueness and ordering at the concrete two-sector batch. -/
theorem sector_summaries_ordered_witness :
    (exPortfolio2.sectorSummaries.map SectorSummary.sector).Perm
      (dedupByKey id (exPortfolio2.rows.map fun r => r.stock.sector)) ∧
    (exPortfolio2.sectorSummaries.map SectorSummary.sector).Nodup ∧
    List.Sorted SectorSummary.before exPortfolio2.sectorSummaries :=
  sector_summaries_ordered exHs2 exPortfolio2 rfl

/-- C7: when the portfolio's total present value is strictly positive, the
sector portfolio weights sum to exactly 100 (exact rational arithmetic). -/
theorem sector_weights_sum_100 (hs : List RawHolding) (p : Portfolio)
    (hp : aggregate hs = .ok p) (hpos : 0 < p.totalPresentValue) :
    (p.sectorSummaries.map SectorSummary.portfolioWeight).sum = 100 := by
  have hT : p.totalPresentValue ≠ 0 := ne_of_gt hpos
  obtain ⟨-, hrows, -, h2, -, -, -⟩ := aggregate_ok hs p hp
  rw [← hrows] at h2
  rw [((summaries_perm hs p hp).map SectorSummary.portfolioWeight).sum_eq, List.map_map]
  simp only [Function.comp_def]
  have hfun : ∀ sec ∈ dedupByKey id (p.rows.map fun r => r.stock.sector),
      SectorSummary.portfolioWeight (mkSectorSummary p.totalPresentValue p.rows sec)
      = ((p.rows.filter fun r => r.stock.sector = sec).map PortfolioRow.presentValue).sum
        * (100 / p.totalPresentValue) := by
    intro sec _
    show (if p.totalPresentValue = 0 then (0 : ℚ)
      else ((p.rows.filter fun r => r.stock.sector = sec).map PortfolioRow.presentValue).sum
        / p.totalPresentValue * 100)
      = ((p.rows.filter fun r => r.stock.sector = sec).map PortfolioRow.presentValue).sum
        * (100 / p.totalPresentValue)
    rw [if_neg hT]
    ring
  rw [List.map_congr_left hfun, List.sum_map_mul_right,
    sum_filter_partition (fun r => r.stock.sector) PortfolioRow.presentValue p.rows
      (dedupByKey id (p.rows.map fun r => r.stock.sector)) (nodup_dedupByKey_id _)
      fun r hr => mem_dedupByKey_id (List.mem_map_of_mem _ hr),
    ← h2, mul_comm, div_mul_cancel₀ _ hT]

/-- Witness for C7: the two-sector batch has weights 60 and 40, summing
to 100. -/
theorem sector_weights_sum_100_witness :
    (exPortfolio2.sectorSummaries.map SectorSummary.portfolioWeight).sum = 100 :=
  sector_weights_sum_100 exHs2 exPortfolio2 rfl
    (by norm_num [exPortfolio2, exHs2, aggregate, validate, sumTotals, mkRow, costBasis,
      exHolding, holdingB, stockA, stockB, Except.toOption])

/-- C10: sector and peRatio are required fields of every Stock, so every row
has a grouping key — some sector summary carries its sector label — and each
summary's averagePeRatio is `some` of the arithmetic mean of peRatio over all
the distinct symbols of the sector: no symbol is ever excluded, since a
missing or non-finite peRatio is not representable in the embedding. -/
theorem sector_key_and_pe_mean_total (hs : List RawHolding) (p : Portfolio)
    (hp : aggregate hs = .ok p) :
    (∀ r ∈ p.rows, ∃ s ∈ p.sectorSummaries, s.sector = r.stock.sector) ∧
    ∀ s ∈ p.sectorSummaries,
      s.stocks = (dedupByKey (fun r => r.stock.symbol)
        (p.rows.filter fun r => r.stock.sector = s.sector)).map (fun r => r.stock.symbol) ∧
      s.stockCount = (dedupByKey (fun r => r.stock.symbol)
        (p.rows.filter fun r => r.stock.sector = s.sector)).length ∧
      s.averagePeRatio = some (((dedupByKey (fun r => r.stock.symbol)
          (p.rows.filter fun r => r.stock.sector = s.sector)).map fun r => r.stock.peRatio).sum
        / ((dedupByKey (fun r => r.stock.symbol)
          (p.rows.filter fun r => r.stock.sector = s.sector)).length : ℚ)) := by
  refine ⟨?_, ?_⟩
  · intro r hr
    refine ⟨mkSectorSummary p.totalPresentValue p.rows r.stock.sector, ?_, rfl⟩
    rw [mem_summaries_iff hs p hp]
    exact ⟨r.stock.sector, mem_dedupByKey_id (List.mem_map_of_mem _ hr), rfl⟩
  · intro s hsmem
    obtain ⟨sec, hsec, rfl⟩ := (mem_summaries_iff hs p hp s).mp hsmem
    have hsec' : sec ∈ p.rows.map fun r => r.stock.sector := by
      simpa using mem_of_mem_dedupByKey id hsec
    obtain ⟨r, hr, hrsec⟩ := List.mem_map.mp hsec'
    have hne : (p.rows.filter fun x => x.stock.sector = sec) ≠ [] := by
      intro hnil
      have hmem : r ∈ p.rows.filter fun x => x.stock.sector = sec :=
        List.mem_filter.mpr ⟨hr, by simpa using hrsec⟩
      rw [hnil] at hmem
      cases hmem
    have hlen : (dedupByKey (fun x => x.stock.symbol)
        (p.rows.filter fun x => x.stock.sector = sec)).length ≠ 0 :=
      Nat.pos_iff_ne_zero.mp (dedupByKey_length_pos _ hne)
    refine ⟨rfl, rfl, ?_⟩
    show (if (dedupByKey (fun x => x.stock.symbol)
          (p.rows.filter fun x => x.stock.sector = sec)).length = 0 then none
      else some (((dedupByKey (fun x => x.stock.symbol)
          (p.rows.filter fun x => x.stock.sector = sec)).map fun x => x.stock.peRatio).sum
        / ((dedupByKey (fun x => x.stock.symbol)
          (p.rows.filter fun x => x.stock.sector = sec)).length : ℚ))) = _
    rw [if_neg hlen]
    rfl

/-- Witness for C10: grouping keys and the full peRatio mean at the concrete
two-sector batch. -/
theorem sector_key_and_pe_mean_total_witness :
    (∀ r ∈ exPortfolio2.rows,
      ∃ s ∈ exPortfolio2.sectorSummaries, s.sector = r.stock.sector) ∧
    ∀ s ∈ exPortfolio2.sectorSummaries,
      s.stocks = (dedupByKey (fun r => r.stock.symbol)
        (exPortfolio2.rows.filter fun r => r.stock.sector = s.sector)).map
          (fun r => r.stock.symbol) ∧
      s.stockCount = (dedupByKey (fun r => r.stock.symbol)
        (exPortfolio2.rows.filter fun r => r.stock.sector = s.sector)).length ∧
      s.averagePeRatio = some (((dedupByKey (fun r => r.stock.symbol)
          (exPortfolio2.rows.filter fun r => r.stock.sector = s.sector)).map
            fun r => r.stock.peRatio).sum
        / ((dedupByKey (fun r => r.stock.symbol)
          (exPortfolio2.rows.filter fun r => r.stock.sector = s.sector)).length : ℚ)) :=
  sector_key_and_pe_mean_total exHs2 exPortfolio2 rfl

end Dashboard
